import Mathlib

/-!
Verification development for the hex-board strategy game engine
(`src/game` tree: `types/index.ts`, `logic/HexUtils.ts`, `logic/GameLogic.ts`,
`ai/MoveUtils.ts`, `ai/GreedyAgent.ts`, `ai/MCTSAgent.ts`, `ai/MCTSNode.ts`).

Modelling conventions:
* A JS `Map<string, T>` keyed by `HexUtils.toKey(pos) = "q,r"` is modelled as an
  association list keyed by the pair `(q, r) : Int × Int`; the string encoding
  `"q,r"` is injective on such pairs, so lookups agree with the source.
* JS numbers appearing in the engine are integers or halves of integers
  (`HexUtils.distance` divides an integer by 2); they are modelled as `ℚ`.
  `-Infinity` sentinels are modelled by `⊥` in `WithBot ℚ`.
* Mutation is modelled by explicit state passing: each embedded operation
  returns the updated value of any map the source could write to.
-/

namespace Game

attribute [local semireducible] Rat.add Rat.sub Rat.mul Rat.inv

/-- The `Player` enum of `types/index.ts`: `NONE = 0` and the six corners. -/
inductive Player where
  | none
  | north
  | northEast
  | southEast
  | south
  | southWest
  | northWest
deriving DecidableEq, Repr

/-- Numeric value of the `Player` enum member, as in the TS source. -/
def Player.toInt : Player → Int
  | .none => 0
  | .north => 1
  | .northEast => 2
  | .southEast => 3
  | .south => 4
  | .southWest => 5
  | .northWest => 6

/-- Partial inverse of `Player.toInt`; `some` exactly on the enum values 0..6. -/
def Player.ofInt? : Int → Option Player
  | 0 => some .none
  | 1 => some .north
  | 2 => some .northEast
  | 3 => some .southEast
  | 4 => some .south
  | 5 => some .southWest
  | 6 => some .northWest
  | _ => Option.none

/-- `PlayerInfo.getOppositeCorner` of `types/index.ts`. -/
def PlayerInfo.getOppositeCorner : Player → Player
  | .north => .south
  | .northEast => .southWest
  | .southEast => .northWest
  | .south => .north
  | .southWest => .northEast
  | .northWest => .southEast
  | .none => .none

/-- `HexPosition` of `types/index.ts`: a cube-coordinate triple. The invariant
`q + r + s = 0` is not enforced by the type, matching the source. -/
structure HexPos where
  q : Int
  r : Int
  s : Int
deriving DecidableEq, Repr

/-- `BoardPosition` of `types/index.ts`: a cell with an occupant and an
optional home-corner marker. -/
structure BoardPos where
  q : Int
  r : Int
  s : Int
  player : Player
  corner : Option Player
deriving DecidableEq, Repr

/-- Coordinate part of a `BoardPosition` (TS passes the record itself where a
`HexPosition` is expected; the extra fields are ignored there). -/
def BoardPos.toHex (p : BoardPos) : HexPos := ⟨p.q, p.r, p.s⟩

/-- Model of the string key `"q,r"` produced by `HexUtils.toKey`: the string
encoding is injective on `(q, r)` pairs, so the pair itself is used. -/
abbrev Key := Int × Int

/-- `HexUtils.toKey`: the map key uses only `q` and `r`. -/
def HexUtils.toKey (p : HexPos) : Key := (p.q, p.r)

/-- `HexUtils.equals`: equality on `q` and `r` only. -/
def HexUtils.equals (a b : HexPos) : Bool := a.q = b.q ∧ a.r = b.r

/-- `HexUtils.distance`: `(|Δq| + |Δr| + |Δs|) / 2`, a JS float modelled in ℚ.
Note it uses the stored `s` components as given, even when they break the
cube invariant. -/
def HexUtils.distance (a b : HexPos) : ℚ :=
  (((a.q - b.q).natAbs : ℚ) + ((a.r - b.r).natAbs : ℚ) + ((a.s - b.s).natAbs : ℚ)) / 2

/-- `HexUtils.getNeighbors`: the six unit directions, in source order. -/
def HexUtils.getNeighbors (p : HexPos) : List HexPos :=
  [ ⟨p.q + 1, p.r, p.s - 1⟩,
    ⟨p.q + 1, p.r - 1, p.s⟩,
    ⟨p.q, p.r - 1, p.s + 1⟩,
    ⟨p.q - 1, p.r, p.s + 1⟩,
    ⟨p.q - 1, p.r + 1, p.s⟩,
    ⟨p.q, p.r + 1, p.s - 1⟩ ]

/-- A board: the JS `Map<string, BoardPosition>` as an insertion-ordered
association list. -/
abbrev Board := List (Key × BoardPos)

/-- JS `Map.get`. -/
def boardGet (b : Board) (k : Key) : Option BoardPos :=
  (b.find? (fun e => e.1 = k)).map (·.2)

/-- JS `Map.has`. -/
def boardHas (b : Board) (k : Key) : Bool :=
  b.any (fun e => e.1 = k)

/-- JS `Map.set`: replace in place when the key exists, else append. -/
def boardSet (b : Board) (k : Key) (v : BoardPos) : Board :=
  if b.any (fun e => e.1 = k) then
    b.map (fun e => if e.1 = k then (k, v) else e)
  else
    b ++ [(k, v)]

/-- In-place update `pos.player = pl` on the cell object stored at key `k`
(a no-op when the key is absent; the callers guard existence). -/
def boardSetPlayer (b : Board) (k : Key) (pl : Player) : Board :=
  b.map (fun e => if e.1 = k then (e.1, { e.2 with player := pl }) else e)

/-- `GameConfig` of `types/index.ts` (the fields the engine reads). -/
structure GameConfig where
  playerCount : Int
  activePlayers : List Player
deriving DecidableEq, Repr

/-- `HexUtils.CORNER_POSITIONS`: the ten cells of each corner triangle, in
source order. -/
def HexUtils.CORNER_POSITIONS : Player → List HexPos
  | .none => []
  | .north =>
      [⟨4, -8, 4⟩,
       ⟨4, -7, 3⟩, ⟨3, -7, 4⟩,
       ⟨4, -6, 2⟩, ⟨3, -6, 3⟩, ⟨2, -6, 4⟩,
       ⟨4, -5, 1⟩, ⟨3, -5, 2⟩, ⟨2, -5, 3⟩, ⟨1, -5, 4⟩]
  | .northEast =>
      [⟨8, -4, -4⟩,
       ⟨7, -4, -3⟩, ⟨7, -3, -4⟩,
       ⟨6, -4, -2⟩, ⟨6, -3, -3⟩, ⟨6, -2, -4⟩,
       ⟨5, -4, -1⟩, ⟨5, -3, -2⟩, ⟨5, -2, -3⟩, ⟨5, -1, -4⟩]
  | .southEast =>
      [⟨4, 4, -8⟩,
       ⟨4, 3, -7⟩, ⟨3, 4, -7⟩,
       ⟨4, 2, -6⟩, ⟨3, 3, -6⟩, ⟨2, 4, -6⟩,
       ⟨4, 1, -5⟩, ⟨3, 2, -5⟩, ⟨2, 3, -5⟩, ⟨1, 4, -5⟩]
  | .south =>
      [⟨-4, 8, -4⟩,
       ⟨-4, 7, -3⟩, ⟨-3, 7, -4⟩,
       ⟨-4, 6, -2⟩, ⟨-3, 6, -3⟩, ⟨-2, 6, -4⟩,
       ⟨-4, 5, -1⟩, ⟨-3, 5, -2⟩, ⟨-2, 5, -3⟩, ⟨-1, 5, -4⟩]
  | .southWest =>
      [⟨-8, 4, 4⟩,
       ⟨-7, 3, 4⟩, ⟨-7, 4, 3⟩,
       ⟨-6, 2, 4⟩, ⟨-6, 3, 3⟩, ⟨-6, 4, 2⟩,
       ⟨-5, 1, 4⟩, ⟨-5, 2, 3⟩, ⟨-5, 3, 2⟩, ⟨-5, 4, 1⟩]
  | .northWest =>
      [⟨-4, -4, 8⟩,
       ⟨-4, -3, 7⟩, ⟨-3, -4, 7⟩,
       ⟨-4, -2, 6⟩, ⟨-3, -3, 6⟩, ⟨-2, -4, 6⟩,
       ⟨-4, -1, 5⟩, ⟨-3, -2, 5⟩, ⟨-2, -3, 5⟩, ⟨-1, -4, 5⟩]

/-- Helper `add` inside `HexUtils.createBoard`: `s` is recomputed as `-q - r`. -/
def HexUtils.addCell (b : Board) (q r : Int) (player : Player)
    (corner : Option Player) : Board :=
  boardSet b (HexUtils.toKey ⟨q, r, -q - r⟩) ⟨q, r, -q - r, player, corner⟩

/-- Central hexagonal region loop of `HexUtils.createBoard`:
`q, r ∈ [-4, 4]` with `|s| ≤ 4`, in loop order. -/
def HexUtils.centralCells : List (Int × Int) :=
  ((List.range 9).map (fun i => (i : Int) - 4)).flatMap (fun q =>
    (((List.range 9).map (fun i => (i : Int) - 4)).filter
      (fun r => (-q - r).natAbs ≤ 4)).map (fun r => (q, r)))

/-- Corner iteration order `allCorners` in `HexUtils.createBoard`. -/
def HexUtils.allCorners : List Player :=
  [.north, .northEast, .southEast, .south, .southWest, .northWest]

/-- `HexUtils.createBoard`: the central region empty, then each corner
triangle, occupied by its owner exactly when that corner is active. -/
def HexUtils.createBoard (config : GameConfig) : Board :=
  let central := HexUtils.centralCells.foldl
    (fun b qr => HexUtils.addCell b qr.1 qr.2 .none Option.none) []
  HexUtils.allCorners.foldl
    (fun b corner =>
      let assigned := if config.activePlayers.contains corner then corner else .none
      (HexUtils.CORNER_POSITIONS corner).foldl
        (fun b pos => HexUtils.addCell b pos.q pos.r assigned (some corner)) b)
    central

/-- `Move` of `ai/MoveUtils.ts`: fields `from`/`to` are renamed
`fromPos`/`toPos` because `from` is a Lean keyword. The optional `score`
field is carried only on the value returned by the greedy agent and is
modelled there as a separate component. -/
structure Move where
  fromPos : HexPos
  toPos : HexPos
deriving DecidableEq, Repr

/-- `GOAL_CENTERS` of `ai/MoveUtils.ts`, verbatim per enum value. -/
def GOAL_CENTERS : Player → HexPos
  | .none => ⟨0, 0, 0⟩
  | .north => ⟨-4, 8, 4⟩
  | .northEast => ⟨8, -4, -4⟩
  | .southEast => ⟨4, 4, -8⟩
  | .south => ⟨-4, 8, -4⟩
  | .southWest => ⟨-8, 4, 4⟩
  | .northWest => ⟨-4, -8, 12⟩

/-- `getCornerCenter`: the `|| GOAL_CENTERS[0]` fallback in the source never
fires because every enum value is a key of the record and JS objects are
truthy. -/
def getCornerCenter (corner : Player) : HexPos := GOAL_CENTERS corner

/-- `cloneBoard` of `ai/MoveUtils.ts`: a fresh map with a shallow copy
(`{...pos}`) of every cell record. -/
def cloneBoard (b : Board) : Board :=
  b.map (fun e => (e.1, ⟨e.2.q, e.2.r, e.2.s, e.2.player, e.2.corner⟩))

/-- `applyMove` of `ai/MoveUtils.ts`: clone, then move the occupant; when
either end is missing from the map nothing further happens. -/
def applyMove (board : Board) (m : Move) : Board :=
  let newBoard := cloneBoard board
  let fromKey := HexUtils.toKey m.fromPos
  let toKey := HexUtils.toKey m.toPos
  match boardGet newBoard fromKey, boardGet newBoard toKey with
  | some fromPos, some _ =>
      boardSetPlayer (boardSetPlayer newBoard toKey fromPos.player) fromKey .none
  | _, _ => newBoard

/-- Direction from `frm` to its neighbor `n`, component-wise as in the
source. -/
def dirOf (frm n : HexPos) : HexPos := ⟨n.q - frm.q, n.r - frm.r, n.s - frm.s⟩

/-- One step from `p` along direction `d`. -/
def stepPos (p d : HexPos) : HexPos := ⟨p.q + d.q, p.r + d.r, p.s + d.s⟩

/-- Mirror landing cell of a jump from `frm` over `over`:
`over + (over − frm)` component-wise. -/
def jumpLanding (frm over : HexPos) : HexPos :=
  ⟨over.q + (over.q - frm.q), over.r + (over.r - frm.r), over.s + (over.s - frm.s)⟩

/-- The inner `hasPieceAt` closure of `findJumpMoves`: the chain's original
start counts as empty because the moving piece has vacated it. -/
def hasPieceAt (board : Board) (originalStart pos : HexPos) : Bool :=
  if HexUtils.equals pos originalStart then false
  else
    match boardGet board (HexUtils.toKey pos) with
    | some bp => decide (bp.player ≠ .none)
    | none => false

/-- JS `Set.add` on the visited set (insertion-ordered, idempotent). -/
def insertKey (k : Key) (v : List Key) : List Key :=
  if k ∈ v then v else v ++ [k]

/-- The `while (distance <= 10)` scan of the Type-2 long jump: walk empty
cells along `dir` from `currentPos` (already `distance` cells out) until the
board ends or a piece is found; returns that piece's cell and the travelled
distance. The landing-cell checks that the source performs inside the loop
body are done by the caller, which is equivalent because the loop breaks
right after them. -/
def scanLongJump (board : Board) (originalStart dir : HexPos) :
    HexPos → Nat → Nat → Option (HexPos × Nat)
  | _, _, 0 => Option.none
  | currentPos, distance, fuel + 1 =>
      let nextPos := stepPos currentPos dir
      match boardGet board (HexUtils.toKey nextPos) with
      | none => Option.none
      | some _ =>
          if hasPieceAt board originalStart nextPos then some (nextPos, distance)
          else scanLongJump board originalStart dir nextPos (distance + 1) fuel

/-- The path-clearance loop of the Type-2 jump: `count` cells beyond the
jumped piece must exist and be empty (the original start counting as
empty). -/
def pathClearFrom (board : Board) (originalStart dir : HexPos) :
    HexPos → Nat → Bool
  | _, 0 => true
  | checkPos, count + 1 =>
      let c := stepPos checkPos dir
      match boardGet board (HexUtils.toKey c) with
      | none => false
      | some bp =>
          if bp.player ≠ .none ∧ ¬ HexUtils.equals c originalStart then false
          else pathClearFrom board originalStart dir c count

namespace MoveUtils

/-- `findJumpMoves` of `ai/MoveUtils.ts`. The shared mutable `moves` array
and `visited` set are threaded explicitly; the `neighbors.forEach` is a
`foldl` over the six neighbors, each applying the Type-1 adjacent jump and
then the Type-2 long jump. `fuel` bounds the chain depth; every recursive
call targets a board cell not yet visited, so a fuel of one more than the
number of board cells never runs out and the function agrees with the
source. -/
def findJumpMoves (board : Board) (originalStart : HexPos) :
    Nat → HexPos → List HexPos → List Key → List HexPos × List Key
  | 0, _, moves, visited => (moves, visited)
  | fuel + 1, frm, moves, visited =>
      let visited1 := insertKey (HexUtils.toKey frm) visited
      (HexUtils.getNeighbors frm).foldl (fun st n =>
        match boardGet board (HexUtils.toKey n) with
        | none => st
        | some _ =>
          let type1 :=
            if hasPieceAt board originalStart n then
              let jumpPos := jumpLanding frm n
              let jumpKey := HexUtils.toKey jumpPos
              match boardGet board jumpKey with
              | some jp =>
                  if jp.player = .none ∧ jumpKey ∉ st.2 then
                    let moves1 :=
                      if st.1.any (fun m => HexUtils.equals m jumpPos) then st.1
                      else st.1 ++ [jumpPos]
                    findJumpMoves board originalStart fuel jumpPos moves1 st.2
                  else st
              | none => st
            else st
          if hasPieceAt board originalStart n then type1
          else
            let dir := dirOf frm n
            match scanLongJump board originalStart dir n 1 10 with
            | none => type1
            | some (nextPos, distance) =>
                let jumpPos := jumpLanding frm nextPos
                let jumpKey := HexUtils.toKey jumpPos
                match boardGet board jumpKey with
                | some jp =>
                    if jp.player = .none ∧ jumpKey ∉ type1.2 then
                      if pathClearFrom board originalStart dir nextPos distance then
                        if type1.1.any (fun m => HexUtils.equals m jumpPos) then type1
                        else
                          findJumpMoves board originalStart fuel jumpPos
                            (type1.1 ++ [jumpPos]) type1.2
                      else type1
                    else type1
                | none => type1)
        (moves, visited1)

/-- `calculateValidMoves` of `ai/MoveUtils.ts`: adjacent empty neighbors,
then chained jumps. -/
def calculateValidMoves (board : Board) (frm : HexPos) : List HexPos :=
  let adjacent := (HexUtils.getNeighbors frm).filter (fun n =>
    match boardGet board (HexUtils.toKey n) with
    | some p => p.player = .none
    | none => false)
  (findJumpMoves board frm (board.length + 1) frm adjacent []).1

/-- `getAllPossibleMoves` of `ai/MoveUtils.ts`: all valid moves of every
piece owned by `player`, in board iteration order. -/
def getAllPossibleMoves (board : Board) (player : Player) : List Move :=
  board.flatMap (fun e =>
    if e.2.player = player then
      (calculateValidMoves board e.2.toHex).map (fun t => ⟨e.2.toHex, t⟩)
    else [])

/-- `evaluateForwardProgress` of `ai/MoveUtils.ts`: reduction in distance to
the goal center produced by the move; the unreachable missing-destination
case yields the `-Infinity` sentinel `⊥`. -/
def evaluateForwardProgress (m : Move) (board : Board) (player : Player) :
    WithBot ℚ :=
  let goalCorner := PlayerInfo.getOppositeCorner player
  let goalCenter := getCornerCenter goalCorner
  let fromDistance := HexUtils.distance m.fromPos goalCenter
  let simulated := applyMove board m
  match boardGet simulated (HexUtils.toKey m.toPos) with
  | none => ⊥
  | some toPos =>
      ((fromDistance - HexUtils.distance toPos.toHex goalCenter : ℚ) : WithBot ℚ)

end MoveUtils

namespace GreedyAgent

/-- A scored candidate of `GreedyAgent.getBestMove`. -/
structure Scored where
  move : Move
  progress : WithBot ℚ
  finalDistance : ℚ
deriving DecidableEq, Repr

/-- The sort comparator of `GreedyAgent.getBestMove` as a strict
comes-before relation: larger progress first, then smaller resulting
distance. -/
def ltScored (a b : Scored) : Prop :=
  b.progress < a.progress ∨ (a.progress = b.progress ∧ a.finalDistance < b.finalDistance)

instance : DecidableRel ltScored := fun a b => by
  unfold ltScored
  infer_instance

/-- Stable insertion used to model the ES2019 stable `Array.sort`. -/
def insertScored (x : Scored) : List Scored → List Scored
  | [] => [x]
  | y :: ys => if ltScored x y then x :: y :: ys else y :: insertScored x ys

/-- Stable sort by the comparator of `GreedyAgent.getBestMove`; as a stable
sort it produces the same list as the JS `Array.sort` call. -/
def sortScored (l : List Scored) : List Scored :=
  l.foldl (fun acc x => insertScored x acc) []

/-- The `scoredMoves` list of `GreedyAgent.getBestMove`. -/
def scoredMoves (board : Board) (player : Player) : List Scored :=
  let goalCorner := PlayerInfo.getOppositeCorner player
  let goalCenter := getCornerCenter goalCorner
  (MoveUtils.getAllPossibleMoves board player).map (fun m =>
    ⟨m, MoveUtils.evaluateForwardProgress m board player,
      HexUtils.distance m.toPos goalCenter⟩)

/-- The sorted `scoredMoves` array (sorted in place in the source). -/
def sortedMoves (board : Board) (player : Player) : List Scored :=
  sortScored (scoredMoves board player)

/-- `bestScore` of `GreedyAgent.getBestMove`:
`scoredMoves[0]?.progress ?? -Infinity` after sorting. -/
def bestScore (board : Board) (player : Player) : WithBot ℚ :=
  match (sortedMoves board player).head? with
  | some e => e.progress
  | none => ⊥

/-- The `bestMoves` filter of `GreedyAgent.getBestMove`: all sorted entries
whose progress equals the best score. -/
def bestMoves (board : Board) (player : Player) : List Scored :=
  (sortedMoves board player).filter (fun e => e.progress = bestScore board player)

/-- `GreedyAgent.getBestMove`. The uniform draw
`Math.floor(Math.random() * bestMoves.length)` is modelled by the index
`r % bestMoves.length`, covering every possible outcome as `r` ranges over
`Nat`. The live board is threaded through and returned: the function only
reads it (move application happens inside `evaluateForwardProgress` on the
clone made by `applyMove`). The returned `score` field is the chosen entry's
progress. -/
def getBestMove (board : Board) (player : Player) (r : Nat) :
    Option (Move × WithBot ℚ) × Board :=
  let moves := MoveUtils.getAllPossibleMoves board player
  if moves.isEmpty then (Option.none, board)
  else
    let scored := scoredMoves board player
    if scored.isEmpty then (Option.none, board)
    else
      let best := bestMoves board player
      match best.get? (r % best.length) with
      | some chosen => (some (⟨chosen.move.fromPos, chosen.move.toPos⟩, chosen.progress), board)
      | none => (Option.none, board)

end GreedyAgent

/-- Abstract syntax of a parsed JSON value, the result of `JSON.parse` in
`GameLogic.importState`. Numbers are modelled as integers: every number the
engine itself serializes is an integer, and a non-integer coordinate or
player value fails the same validation steps as the off-board or non-enum
values representable here. -/
inductive JVal where
  | jnull
  | jbool (b : Bool)
  | num (n : Int)
  | str (s : String)
  | arr (xs : List JVal)
  | obj (fields : List (String × JVal))

/-- Property access on a parsed JSON object (post-parse objects have unique
keys). -/
def JVal.objGet (fields : List (String × JVal)) (k : String) : Option JVal :=
  (fields.find? (fun e => e.1 = k)).map (·.2)

namespace GameLogic

/-- `GameState` of `types/index.ts`. -/
structure GameState where
  config : GameConfig
  currentPlayer : Player
  currentPlayerIndex : Nat
  board : Board
  selectedPosition : Option HexPos
  validMoves : List HexPos
  winner : Option Player
deriving DecidableEq, Repr

/-- The `GameLogic` constructor: starting player is the first active player
(or `NONE` when the list is empty). -/
def init (board : Board) (config : GameConfig) : GameState :=
  { config := config
    currentPlayer := (config.activePlayers.head?).getD .none
    currentPlayerIndex := 0
    board := board
    selectedPosition := Option.none
    validMoves := []
    winner := Option.none }

/-- `GameLogic.findJumpMoves` of `logic/GameLogic.ts`. It differs from the
`MoveUtils` version in the Type-2 branch: here the source recurses from the
landing cell even when the landing was already in `moves`. -/
def findJumpMoves (board : Board) (originalStart : HexPos) :
    Nat → HexPos → List HexPos → List Key → List HexPos × List Key
  | 0, _, moves, visited => (moves, visited)
  | fuel + 1, frm, moves, visited =>
      let visited1 := insertKey (HexUtils.toKey frm) visited
      (HexUtils.getNeighbors frm).foldl (fun st n =>
        match boardGet board (HexUtils.toKey n) with
        | none => st
        | some _ =>
          let type1 :=
            if hasPieceAt board originalStart n then
              let jumpPos := jumpLanding frm n
              let jumpKey := HexUtils.toKey jumpPos
              match boardGet board jumpKey with
              | some jp =>
                  if jp.player = .none ∧ jumpKey ∉ st.2 then
                    let moves1 :=
                      if st.1.any (fun m => HexUtils.equals m jumpPos) then st.1
                      else st.1 ++ [jumpPos]
                    findJumpMoves board originalStart fuel jumpPos moves1 st.2
                  else st
              | none => st
            else st
          if hasPieceAt board originalStart n then type1
          else
            let dir := dirOf frm n
            match scanLongJump board originalStart dir n 1 10 with
            | none => type1
            | some (nextPos, distance) =>
                let jumpPos := jumpLanding frm nextPos
                let jumpKey := HexUtils.toKey jumpPos
                match boardGet board jumpKey with
                | some jp =>
                    if jp.player = .none ∧ jumpKey ∉ type1.2 then
                      if pathClearFrom board originalStart dir nextPos distance then
                        let moves2 :=
                          if type1.1.any (fun m => HexUtils.equals m jumpPos) then type1.1
                          else type1.1 ++ [jumpPos]
                        findJumpMoves board originalStart fuel jumpPos moves2 type1.2
                      else type1
                    else type1
                | none => type1)
        (moves, visited1)

/-- `GameLogic.calculateValidMoves`: adjacent empty neighbors, then chained
jumps. -/
def calculateValidMoves (board : Board) (frm : HexPos) : List HexPos :=
  let adjacent := (HexUtils.getNeighbors frm).filter (fun n =>
    match boardGet board (HexUtils.toKey n) with
    | some p => p.player = .none
    | none => false)
  (findJumpMoves board frm (board.length + 1) frm adjacent []).1

/-- `GameLogic.selectPiece`: succeeds only on a cell occupied by the current
player; caches the valid destinations. The winner field is not consulted. -/
def selectPiece (s : GameState) (pos : HexPos) : Bool × GameState :=
  match boardGet s.board (HexUtils.toKey pos) with
  | none => (false, s)
  | some bp =>
      if bp.player ≠ s.currentPlayer then (false, s)
      else
        (true, { s with selectedPosition := some pos
                        validMoves := calculateValidMoves s.board pos })

/-- `GameLogic.checkWin`: the current player occupies exactly 10 cells and
all of them lie in the opposite corner. -/
def checkWin (board : Board) (player : Player) : Bool :=
  let goalCorner := PlayerInfo.getOppositeCorner player
  let totalPieces := board.countP (fun e => e.2.player = player)
  let piecesInGoal := board.countP (fun e =>
    e.2.player = player ∧ e.2.corner = some goalCorner)
  totalPieces = 10 ∧ piecesInGoal = 10

/-- `GameLogic.movePiece`: commit the cached selection to `to`, run the win
check for the mover, otherwise rotate the turn; selection is always cleared
on success. The winner field is not consulted. The source dereferences the
two cells with non-null assertions and would throw before mutating anything
if one were missing; that unreachable case is modelled as a plain failure. -/
def movePiece (s : GameState) (dst : HexPos) : Bool × GameState :=
  match s.selectedPosition with
  | none => (false, s)
  | some sel =>
      if ¬ s.validMoves.any (fun m => HexUtils.equals m dst) then (false, s)
      else
        let fromKey := HexUtils.toKey sel
        let toKey := HexUtils.toKey dst
        match boardGet s.board fromKey, boardGet s.board toKey with
        | some fromPos, some _ =>
            let board1 :=
              boardSetPlayer (boardSetPlayer s.board toKey fromPos.player) fromKey .none
            if checkWin board1 s.currentPlayer then
              (true, { s with board := board1
                              winner := some s.currentPlayer
                              selectedPosition := Option.none
                              validMoves := [] })
            else
              let total := s.config.activePlayers.length
              if 0 < total then
                let idx := (s.currentPlayerIndex + 1) % total
                (true, { s with board := board1
                                currentPlayerIndex := idx
                                currentPlayer := (s.config.activePlayers.get? idx).getD .none
                                selectedPosition := Option.none
                                validMoves := [] })
              else
                (true, { s with board := board1
                                selectedPosition := Option.none
                                validMoves := [] })
        | _, _ => (false, s)

/-- `GameLogic.deselectPiece`. -/
def deselectPiece (s : GameState) : GameState :=
  { s with selectedPosition := Option.none, validMoves := [] }

/-- The record built by `GameLogic.exportState` before `JSON.stringify`:
current player plus one `(q, r, s, player)` tuple per board cell in
iteration order. `JSON.parse ∘ JSON.stringify` is the identity on this
integer-valued record, so import-after-export is modelled by feeding this
value to `importState`. -/
def exportStateVal (s : GameState) : JVal :=
  .obj [("currentPlayer", .num s.currentPlayer.toInt),
        ("board", .arr (s.board.map (fun e =>
          .obj [("q", .num e.2.q), ("r", .num e.2.r), ("s", .num e.2.s),
                ("player", .num e.2.player.toInt)])))]

/-- JS `Map.set` on the temporary `newBoardPlayers` map of `importState`:
replace the value at the first occurrence of the key keeping its position,
else append. (A JS `Map` never holds duplicate keys, so replacing the first
occurrence is exact.) -/
def playersSet : List (Key × Player) → Key → Player → List (Key × Player)
  | [], k, v => [(k, v)]
  | e :: rest, k, v =>
      if e.1 = k then (k, v) :: rest else e :: playersSet rest k v

/-- JS `Map.get` on the `newBoardPlayers` map. -/
def playersGet (m : List (Key × Player)) (k : Key) : Option Player :=
  (m.find? (fun e => e.1 = k)).map (·.2)

/-- The per-tuple validation loop of `importState`: each entry must be an
object with numeric `q`, `r`, `s` and a `player` among the enum values
0..6, and its key must exist on the live board; on success the accumulated
`newBoardPlayers` map is returned. (The TS numeric-enum reverse mapping
means `Object.values(Player)` also contains the seven member names, so the
source additionally accepts those name strings as player values; such
degenerate inputs are outside this model.) -/
def validatePieces (board : Board) :
    List JVal → List (Key × Player) → Option (List (Key × Player))
  | [], acc => some acc
  | piece :: rest, acc =>
      match piece with
      | .obj pf =>
          match JVal.objGet pf "q", JVal.objGet pf "r",
                JVal.objGet pf "s", JVal.objGet pf "player" with
          | some (.num q), some (.num r), some (.num s), some (.num pl) =>
              if 0 ≤ pl ∧ pl ≤ 6 then
                let key := HexUtils.toKey ⟨q, r, s⟩
                if boardHas board key then
                  validatePieces board rest
                    (playersSet acc key ((Player.ofInt? pl).getD .none))
                else Option.none
              else Option.none
          | _, _, _, _ => Option.none
      | _ => Option.none

/-- `GameLogic.importState` on a parsed value (`Option.none` models a
`JSON.parse` failure). Validation happens in source order — top-level shape,
current player, board array, every tuple — and only after all of it does the
state change; every failure path returns `false` with the state untouched,
mirroring the `try/catch` in the source where all throws precede any
mutation. -/
def importState (jsonState : Option JVal) (s : GameState) : Bool × GameState :=
  match jsonState with
  | none => (false, s)
  | some state =>
      match state with
      | .obj fields =>
          match JVal.objGet fields "currentPlayer", JVal.objGet fields "board" with
          | some cpVal, some boardVal =>
              match cpVal with
              | .num cp =>
                  if 0 ≤ cp ∧ cp ≤ 6 then
                    match boardVal with
                    | .arr pieces =>
                        match validatePieces s.board pieces [] with
                        | some newPlayers =>
                            let board1 := s.board.map (fun e =>
                              (e.1, { e.2 with
                                player := (playersGet newPlayers e.1).getD .none }))
                            (true, { s with
                              currentPlayer := (Player.ofInt? cp).getD .none
                              board := board1
                              selectedPosition := Option.none
                              validMoves := []
                              winner := Option.none })
                        | none => (false, s)
                    | _ => (false, s)
                  else (false, s)
              | _ => (false, s)
          | _, _ => (false, s)
      | _ => (false, s)

end GameLogic

namespace MCTSAgent

/-- The constructor state of `MCTSAgent` that the search reads: own player,
opponent, and the active-player rotation from the `GameConfig`. The time
budget is modelled by the iteration count passed to the search. -/
structure MCTSParams where
  player : Player
  opponent : Player
  activePlayers : List Player

/-- `MCTSAgent.evaluate`: negated sum of own piece distances to the goal
center plus half the sum of the opponent's piece distances to the
opponent's goal. -/
def evaluate (p : MCTSParams) (board : Board) : ℚ :=
  let goalCenter := getCornerCenter (PlayerInfo.getOppositeCorner p.player)
  let oppGoalCenter := getCornerCenter (PlayerInfo.getOppositeCorner p.opponent)
  let sums := board.foldl (fun (acc : ℚ × ℚ) e =>
    if e.2.player = p.player then
      (acc.1 + HexUtils.distance e.2.toHex goalCenter, acc.2)
    else if e.2.player = p.opponent then
      (acc.1, acc.2 + HexUtils.distance e.2.toHex oppGoalCenter)
    else acc) (0, 0)
  let score : ℚ := -sums.1 + sums.2 * (1 / 2)
  score

/-- The playout loop of `MCTSAgent.simulate`: up to 15 plies, greedy
one-step lookahead on the agent's own turns, the oracle `oppPick` supplying
the uniform draw on the other turns; returns the final board. -/
def simLoop (p : MCTSParams) (oppPick : Nat → Nat) :
    Nat → Nat → Board → Player → Board
  | 0, _, board, _ => board
  | fuel + 1, depth, board, currentPlayer =>
      match MoveUtils.getAllPossibleMoves board currentPlayer with
      | [] => board
      | m0 :: rest =>
          let moves := m0 :: rest
          let chosen : Option Move :=
            if currentPlayer = p.player then
              let folded := moves.foldl (fun (acc : Move × Option ℚ) mv =>
                let value := evaluate p (applyMove board mv)
                let better := match acc.2 with
                  | none => true
                  | some bv => decide (bv < value)
                if better then (mv, some value) else acc) (m0, Option.none)
              some folded.1
            else
              moves.get? (oppPick depth % moves.length)
          match chosen with
          | none => board
          | some mv =>
              let board1 := applyMove board mv
              if p.activePlayers.isEmpty then board1
              else
                let nextIdx :=
                  if currentPlayer ∈ p.activePlayers then
                    (p.activePlayers.indexOf currentPlayer + 1) % p.activePlayers.length
                  else 0
                match p.activePlayers.get? nextIdx with
                | none => board1
                | some nextPlayer =>
                    simLoop p oppPick fuel (depth + 1) board1 nextPlayer

/-- `MCTSAgent.simulate`: clone the node's board, play out `simLoop` for up
to the depth limit of 15 starting with the agent's player, and evaluate the
resulting board. -/
def simulate (p : MCTSParams) (oppPick : Nat → Nat) (nodeBoard : Board) : ℚ :=
  evaluate p (simLoop p oppPick 15 0 (cloneBoard nodeBoard) p.player)

/-- `MCTSNode` of `ai/MCTSNode.ts`: board snapshot (deep-cloned on
construction), producing move, win/visit counters, untried moves and
children. The `playerId` field is always the agent's player and is read
nowhere, and the parent back-reference is realised by the tree recursion, so
neither is stored. -/
inductive MCTSNode where
  | mk (board : Board) (move : Option Move) (wins visits : Nat)
      (untried : List Move) (children : List MCTSNode)

/-- Board snapshot of a node. -/
def MCTSNode.board : MCTSNode → Board
  | .mk b _ _ _ _ _ => b

/-- Producing move of a node (`null` at the root). -/
def MCTSNode.move : MCTSNode → Option Move
  | .mk _ m _ _ _ _ => m

/-- Win counter of a node. -/
def MCTSNode.wins : MCTSNode → Nat
  | .mk _ _ w _ _ _ => w

/-- Visit counter of a node. -/
def MCTSNode.visits : MCTSNode → Nat
  | .mk _ _ _ v _ _ => v

/-- Untried-move list of a node. -/
def MCTSNode.untried : MCTSNode → List Move
  | .mk _ _ _ _ u _ => u

/-- Children of a node. -/
def MCTSNode.children : MCTSNode → List MCTSNode
  | .mk _ _ _ _ _ c => c

/-- The nondeterministic choices of one search iteration. `selIdx` abstracts
`MCTSNode.bestChild` — the UCB1 formula mixes `sqrt`/`log` floats, so the
selected child index at each depth is left as an arbitrary choice, which
covers the concrete UCB1 policy; `expandIdx` is the uniform draw of the
expansion phase and `simPick` the per-ply draw of the simulation phase. -/
structure IterOracle where
  selIdx : Nat → Nat
  expandIdx : Nat
  simPick : Nat → Nat

/-- One MCTS iteration (selection, expansion, simulation, backpropagation)
of `MCTSAgent.getBestMove`, written as a recursive descent: while a node
has no untried moves and has children, descend into the selected child;
otherwise expand one untried move (or simulate in place at a terminal
leaf). The returned rational is the simulation result; visit counters are
incremented and win counters incremented on a positive result at every node
along the path, which is exactly `backpropagate`. -/
def searchStep (p : MCTSParams) (o : IterOracle) : Nat → MCTSNode → MCTSNode × ℚ
  | depth, .mk board move wins visits [] (c :: cs) =>
      let stepped := searchStep p o (depth + 1)
        ((c :: cs).get ⟨o.selIdx depth % (c :: cs).length,
          Nat.mod_lt _ (Nat.succ_pos cs.length)⟩)
      (.mk board move (wins + (if 0 < stepped.2 then 1 else 0)) (visits + 1)
        [] ((c :: cs).set (o.selIdx depth % (c :: cs).length) stepped.1), stepped.2)
  | _, .mk board move wins visits [] [] =>
      let res := simulate p o.simPick board
      (.mk board move (wins + (if 0 < res then 1 else 0)) (visits + 1)
        [] [], res)
  | _, .mk board move wins visits (u :: us) children =>
      let j := o.expandIdx % (u :: us).length
      let mv := (u :: us).get ⟨j, Nat.mod_lt _ (Nat.succ_pos us.length)⟩
      let newBoard := applyMove board mv
      let childUntried := MoveUtils.getAllPossibleMoves newBoard p.player
      let res := simulate p o.simPick (cloneBoard newBoard)
      let child := MCTSNode.mk (cloneBoard newBoard) (some mv)
        (if 0 < res then 1 else 0) 1 childUntried []
      (.mk board move (wins + (if 0 < res then 1 else 0)) (visits + 1)
        ((u :: us).eraseIdx j) (children ++ [child]), res)
termination_by depth node => sizeOf node
decreasing_by
  simp only [MCTSNode.mk.sizeOf_spec]
  have h := List.sizeOf_get (c :: cs)
    ⟨o.selIdx depth % (c :: cs).length, Nat.mod_lt _ (Nat.succ_pos cs.length)⟩
  omega

/-- The timed `while` loop of `MCTSAgent.getBestMove`, modelled by an
explicit iteration count with a per-iteration oracle. -/
def runIters (p : MCTSParams) (os : Nat → IterOracle) :
    Nat → MCTSNode → MCTSNode
  | 0, root => root
  | k + 1, root => runIters p os k (searchStep p (os k) 0 root).1

/-- The root node of `MCTSAgent.getBestMove`: the node constructor clones
the live board; the untried moves are generated for the agent's player. -/
def mkRoot (p : MCTSParams) (board : Board) : MCTSNode :=
  MCTSNode.mk (cloneBoard board) Option.none 0 0
    (MoveUtils.getAllPossibleMoves board p.player) []

/-- `MCTSNode.mostVisitedChild`: first child with the strictly largest visit
count. -/
def mostVisitedChild (children : List MCTSNode) : Option MCTSNode :=
  children.foldl (fun (acc : Option MCTSNode) c =>
    match acc with
    | none => some c
    | some b => if b.visits < c.visits then some c else acc) Option.none

/-- `MCTSAgent.getBestMove`: build the root, run the time-boxed iterations,
return the most visited child's move, falling back to a random untried root
move. The live board is threaded through and returned: every write during
search targets a board created by `cloneBoard` (the node constructor and
`applyMove`). -/
def getBestMove (p : MCTSParams) (board : Board) (os : Nat → IterOracle)
    (iters : Nat) (fallbackPick : Nat) : Option Move × Board :=
  let root := mkRoot p board
  if root.untried.isEmpty then (Option.none, board)
  else
    let root1 := runIters p os iters root
    let fallback : Option Move × Board :=
      match root1.untried.get? (fallbackPick % root1.untried.length) with
      | some mv => (some mv, board)
      | none => (Option.none, board)
    match mostVisitedChild root1.children with
    | some bc =>
        match bc.move with
        | some mv => (some mv, board)
        | none => fallback
    | none => fallback

/-- Single-perspective invariant of the search tree: every untried move and
every child's producing move is a legal move of player `p` on the node's own
board, recursively. -/
inductive SinglePerspective (p : Player) : MCTSNode → Prop where
  | mk : ∀ (board : Board) (move : Option Move) (wins visits : Nat)
      (untried : List Move) (children : List MCTSNode),
      (∀ m ∈ untried, m ∈ MoveUtils.getAllPossibleMoves board p) →
      (∀ c ∈ children, ∃ mv, c.move = some mv ∧
        mv ∈ MoveUtils.getAllPossibleMoves board p) →
      (∀ c ∈ children, SinglePerspective p c) →
      SinglePerspective p (.mk board move wins visits untried children)

end MCTSAgent

/-! Concrete inputs used by counterexamples and witnesses. -/

/-- The standard two-player configuration (as in the repository's tests). -/
def cfg2 : GameConfig := ⟨2, [.south, .north]⟩

/-- The freshly constructed game state for the two-player configuration. -/
def initialState2 : GameLogic.GameState :=
  GameLogic.init (HexUtils.createBoard cfg2) cfg2

/-- A serialized record whose only tuple has the off-board coordinate
`(99, 99, -198)`. -/
def badImportVal : JVal :=
  .obj [("currentPlayer", .num 4),
        ("board", .arr [.obj [("q", .num 99), ("r", .num 99),
                              ("s", .num (-198)), ("player", .num 1)]])]

/-- A two-cell board: a south piece at the origin and an empty cell above
it. -/
def tinyBoard : Board :=
  [((0, 0), ⟨0, 0, 0, .south, Option.none⟩),
   ((0, 1), ⟨0, 1, -1, .none, Option.none⟩)]

/-- A state with the winner already set to south, who is still the current
player, with a movable south piece on the board. -/
def wonState : GameLogic.GameState :=
  { config := cfg2, currentPlayer := .south, currentPlayerIndex := 0,
    board := tinyBoard, selectedPosition := Option.none, validMoves := [],
    winner := some .south }

/-- A board for player north with two pieces, each having exactly one legal
move; both moves gain one step of progress toward north's goal center, but
they end at distances 7 and 1 from it respectively. -/
def tieBoard : Board :=
  [((0, 0), ⟨0, 0, 0, .north, Option.none⟩),
   ((0, 1), ⟨0, 1, -1, .none, Option.none⟩),
   ((-4, 6), ⟨-4, 6, -2, .north, Option.none⟩),
   ((-4, 7), ⟨-4, 7, -3, .none, Option.none⟩)]

/-- A state with a pending selection of the origin piece on `tinyBoard`,
ready to commit a move to `(0, 1, -1)`. -/
def pendingState : GameLogic.GameState :=
  { config := cfg2, currentPlayer := .south, currentPlayerIndex := 0,
    board := tinyBoard, selectedPosition := some ⟨0, 0, 0⟩,
    validMoves := [⟨0, 1, -1⟩], winner := Option.none }

/-- A semantic board tuple `(q, r, s, player)` as exported and imported by
the serializer. -/
abbrev TupleRec := Int × Int × Int × Player

/-- Map key of a tuple: its `(q, r)` pair, as computed by `importState`. -/
def tupleKey (t : TupleRec) : Key := (t.1, t.2.1)

/-- Occupant of a tuple. -/
def tuplePlayer (t : TupleRec) : Player := t.2.2.2

/-- JSON encoding of one board tuple, as produced by `exportState`. -/
def encTuple (t : TupleRec) : JVal :=
  .obj [("q", .num t.1), ("r", .num t.2.1), ("s", .num t.2.2.1),
        ("player", .num (tuplePlayer t).toInt)]

/-- JSON encoding of a whole serialized state. -/
def encState (cp : Player) (ts : List TupleRec) : JVal :=
  .obj [("currentPlayer", .num cp.toInt), ("board", .arr (ts.map encTuple))]

/-- The tuples of a board, in iteration order. -/
def boardTuples (b : Board) : List TupleRec :=
  b.map (fun e => (e.2.q, e.2.r, e.2.s, e.2.player))

/-- The `newBoardPlayers` map that `importState`'s validation loop builds
from a tuple list. -/
def buildPlayers (ts : List TupleRec) (acc : List (Key × Player)) :
    List (Key × Player) :=
  ts.foldl (fun a t => GameLogic.playersSet a (tupleKey t) (tuplePlayer t)) acc

/-- Cell update used to state import results: entry `e` with its occupant
replaced. -/
def setCellPlayer (e : Key × BoardPos) (p : Player) : Key × BoardPos :=
  (e.1, { e.2 with player := p })

/-- The occupant a tuple list assigns to key `k`: the occupant of the listed
tuple for `k`, or empty when `k` is unlisted. -/
def listedPlayer (ts : List TupleRec) (k : Key) : Player :=
  match ts.find? (fun t => tupleKey t = k) with
  | some t => tuplePlayer t
  | none => Player.none

/-- A tuple list with one entry, covering only the origin cell of
`tinyBoard`. -/
def partialTuples : List TupleRec := [(0, 0, 0, Player.south)]

/-! Helper lemmas. -/

/-- Cloning a board is the identity on the modelled value (the source copies
every field of every cell). -/
theorem cloneBoard_eq (b : Board) : cloneBoard b = b := by
  induction b with
  | nil => rfl
  | cons e rest ih => simpa [cloneBoard] using ih

/-- Round-trip of the player enum through its numeric value. -/
theorem Player.ofInt_toInt (p : Player) : Player.ofInt? p.toInt = some p := by
  cases p <;> rfl

/-- Every enum value lies in the accepted range 0..6. -/
theorem Player.toInt_range (p : Player) : 0 ≤ p.toInt ∧ p.toInt ≤ 6 := by
  cases p <;> simp [Player.toInt]

/-- Lookup after a JS `Map.set` on the players map. -/
theorem playersGet_playersSet (m : List (Key × Player)) (k : Key) (v : Player)
    (kx : Key) :
    GameLogic.playersGet (GameLogic.playersSet m k v) kx =
      if kx = k then some v else GameLogic.playersGet m kx := by
  induction m with
  | nil =>
      by_cases hx : kx = k
      · subst hx
        simp [GameLogic.playersSet, GameLogic.playersGet, List.find?]
      · simp [GameLogic.playersSet, GameLogic.playersGet, List.find?, hx,
          show ¬ (k = kx) from fun hh => hx hh.symm]
  | cons e rest ih =>
      by_cases he : e.1 = k
      · simp only [GameLogic.playersSet, if_pos he]
        by_cases hx : kx = k
        · simp [GameLogic.playersGet, List.find?, hx]
        · have h1 : decide ((k, v).1 = kx) = false := by
            simp only [decide_eq_false_iff_not]
            exact fun hh => hx hh.symm
          have h2 : decide (e.1 = kx) = false := by
            simp only [decide_eq_false_iff_not]
            rw [he]
            exact fun hh => hx hh.symm
          simp [GameLogic.playersGet, List.find?, h1, h2, hx]
      · simp only [GameLogic.playersSet, if_neg he]
        by_cases hex : e.1 = kx
        · have hx : ¬ kx = k := fun hh => he (hex.trans hh)
          simp [GameLogic.playersGet, List.find?, hex, hx]
        · have h2 : decide (e.1 = kx) = false := by
            simp [hex]
          simp only [GameLogic.playersGet, List.find?, h2] at ih ⊢
          exact ih

/-- Building the players map past keys different from `kx` does not affect
its lookup. -/
theorem playersGet_buildPlayers_of_not_mem (ts : List TupleRec)
    (acc : List (Key × Player)) (kx : Key) (h : ∀ t ∈ ts, tupleKey t ≠ kx) :
    GameLogic.playersGet (buildPlayers ts acc) kx =
      GameLogic.playersGet acc kx := by
  induction ts generalizing acc with
  | nil => rfl
  | cons t rest ih =>
      have step : GameLogic.playersGet
          (GameLogic.playersSet acc (tupleKey t) (tuplePlayer t)) kx =
          GameLogic.playersGet acc kx := by
        rw [playersGet_playersSet]
        exact if_neg (fun hh => h t (by simp) hh.symm)
      rw [show buildPlayers (t :: rest) acc =
        buildPlayers rest (GameLogic.playersSet acc (tupleKey t) (tuplePlayer t))
        from rfl]
      rw [ih _ (fun t2 ht2 => h t2 (by simp [ht2]))]
      exact step

/-- Lookup in the players map built from a duplicate-free tuple list: the
unique listed tuple for the key wins, otherwise the accumulator's value
remains. -/
theorem playersGet_buildPlayers (ts : List TupleRec)
    (acc : List (Key × Player)) (kx : Key)
    (hnd : (ts.map tupleKey).Nodup) :
    GameLogic.playersGet (buildPlayers ts acc) kx =
      (match ts.find? (fun t => tupleKey t = kx) with
        | some t => some (tuplePlayer t)
        | none => GameLogic.playersGet acc kx) := by
  induction ts generalizing acc with
  | nil => rfl
  | cons t rest ih =>
      simp only [List.map_cons, List.nodup_cons] at hnd
      rw [show buildPlayers (t :: rest) acc =
        buildPlayers rest (GameLogic.playersSet acc (tupleKey t) (tuplePlayer t))
        from rfl]
      by_cases hk : tupleKey t = kx
      · rw [playersGet_buildPlayers_of_not_mem rest _ kx]
        · rw [playersGet_playersSet, if_pos hk.symm]
          simp [List.find?, hk]
        · intro t2 ht2 hk2
          apply hnd.1
          have hmem : tupleKey t2 ∈ rest.map tupleKey :=
            List.mem_map_of_mem tupleKey ht2
          rw [hk2, ← hk] at hmem
          exact hmem
      · rw [ih _ hnd.2]
        have : List.find? (fun t => decide (tupleKey t = kx)) (t :: rest) =
            List.find? (fun t => decide (tupleKey t = kx)) rest := by
          simp [List.find?, hk]
        rw [this]
        cases rest.find? (fun t => decide (tupleKey t = kx)) with
        | none =>
            simp only
            rw [playersGet_playersSet, if_neg (fun hh => hk hh.symm)]
        | some t2 => simp

/-- One validation step on an encoded tuple: the tuple always parses, its
player value is always in range, and what remains is the board-membership
check of its key. -/
theorem validatePieces_cons (board : Board) (t : TupleRec) (rest : List JVal)
    (acc : List (Key × Player)) :
    GameLogic.validatePieces board (encTuple t :: rest) acc =
      (if boardHas board (tupleKey t) = true then
        GameLogic.validatePieces board rest
          (GameLogic.playersSet acc (tupleKey t) (tuplePlayer t))
      else Option.none) := by
  have base : GameLogic.validatePieces board (encTuple t :: rest) acc =
      (if 0 ≤ (tuplePlayer t).toInt ∧ (tuplePlayer t).toInt ≤ 6 then
        (if boardHas board (tupleKey t) = true then
          GameLogic.validatePieces board rest
            (GameLogic.playersSet acc (tupleKey t)
              ((Player.ofInt? (tuplePlayer t).toInt).getD .none))
        else Option.none)
      else Option.none) := rfl
  rw [base, if_pos (Player.toInt_range (tuplePlayer t)), Player.ofInt_toInt,
    Option.getD_some]

/-- Validation of an encoded tuple list succeeds when every listed key is on
the live board, returning the built players map. -/
theorem validatePieces_enc_success (board : Board) (ts : List TupleRec)
    (acc : List (Key × Player))
    (h : ∀ t ∈ ts, boardHas board (tupleKey t) = true) :
    GameLogic.validatePieces board (ts.map encTuple) acc =
      some (buildPlayers ts acc) := by
  induction ts generalizing acc with
  | nil => rfl
  | cons t rest ih =>
      rw [List.map_cons, validatePieces_cons, if_pos (h t (by simp))]
      exact ih _ (fun t2 ht2 => h t2 (by simp [ht2]))

/-- If validation of an encoded tuple list succeeds, the returned map is the
built players map. -/
theorem validatePieces_enc_some (board : Board) (ts : List TupleRec)
    (acc : List (Key × Player)) (m : List (Key × Player))
    (h : GameLogic.validatePieces board (ts.map encTuple) acc = some m) :
    m = buildPlayers ts acc := by
  induction ts generalizing acc with
  | nil => simpa [GameLogic.validatePieces, buildPlayers] using h.symm
  | cons t rest ih =>
      rw [List.map_cons, validatePieces_cons] at h
      split at h
      · exact ih _ h
      · cases h

/-- `find?` only depends on the predicate's values on the list members. -/
theorem find?_congr_mem {α : Type} (l : List α) (p q : α → Bool)
    (h : ∀ a ∈ l, p a = q a) : l.find? p = l.find? q := by
  induction l with
  | nil => rfl
  | cons x xs ih =>
      simp only [List.find?]
      rw [h x (by simp)]
      cases q x
      · exact ih (fun a ha => h a (by simp [ha]))
      · rfl

/-- With duplicate-free keys, looking for an entry's own key finds that
entry. -/
theorem find?_self_of_nodup {α : Type} :
    ∀ (l : List (Key × α)), (l.map (·.1)).Nodup → ∀ e : Key × α, e ∈ l →
      l.find? (fun x => x.1 = e.1) = some e := by
  intro l
  induction l with
  | nil => intro _ e he; cases he
  | cons a rest ih =>
      intro hnd e he
      simp only [List.map_cons, List.nodup_cons] at hnd
      rcases List.mem_cons.mp he with he1 | he1
      · subst he1
        simp [List.find?]
      · have ha : ¬ (a.1 = e.1) := by
          intro hh
          have hmem : e.1 ∈ rest.map (·.1) := List.mem_map_of_mem (·.1) he1
          rw [← hh] at hmem
          exact hnd.1 hmem
        simp only [List.find?, show decide (a.1 = e.1) = false from by simp [ha]]
        exact ih hnd.2 e he1

/-- The exported record is the canonical encoding of the board's tuples. -/
theorem exportStateVal_eq (s : GameLogic.GameState) :
    GameLogic.exportStateVal s = encState s.currentPlayer (boardTuples s.board) := by
  unfold GameLogic.exportStateVal encState boardTuples
  rw [List.map_map]
  rfl

/-! Theorems for the claims. -/

set_option maxRecDepth 100000 in
/-- C1, counterexample: in `wonState` the winner is already set, yet
`selectPiece` succeeds and mutates the selection, and a subsequent
`movePiece` succeeds, changes the board occupants and advances the current
player — refuting the claim that both calls return `false` and leave the
state unchanged once a winner is set. -/
theorem selectPiece_after_win_succeeds :
    wonState.winner = some Player.south ∧
    (GameLogic.selectPiece wonState ⟨0, 0, 0⟩).1 = true ∧
    (GameLogic.selectPiece wonState ⟨0, 0, 0⟩).2 ≠ wonState ∧
    (GameLogic.movePiece (GameLogic.selectPiece wonState ⟨0, 0, 0⟩).2 ⟨0, 1, -1⟩).1
      = true ∧
    boardGet (GameLogic.movePiece (GameLogic.selectPiece wonState ⟨0, 0, 0⟩).2
        ⟨0, 1, -1⟩).2.board (0, 1) = some ⟨0, 1, -1, .south, Option.none⟩ ∧
    (GameLogic.movePiece (GameLogic.selectPiece wonState ⟨0, 0, 0⟩).2
        ⟨0, 1, -1⟩).2.currentPlayer = Player.north := by
  decide

/-- C1 (amended): the winner field is not consulted by `selectPiece` or
`movePiece` — both return the same success flag as in the winner-null state,
and `selectPiece` leaves the winner unchanged — so once a winner is set the
winning player (still the current player) can keep selecting and moving. -/
theorem winner_not_consulted (s : GameLogic.GameState) (pos dst : HexPos) :
    (GameLogic.selectPiece s pos).1
      = (GameLogic.selectPiece { s with winner := Option.none } pos).1 ∧
    (GameLogic.selectPiece s pos).2.winner = s.winner ∧
    (GameLogic.movePiece s dst).1
      = (GameLogic.movePiece { s with winner := Option.none } dst).1 := by
  refine ⟨?_, ?_, ?_⟩
  · cases hb : boardGet s.board (HexUtils.toKey pos) <;>
      simp only [GameLogic.selectPiece, hb] <;> split <;> rfl
  · cases hb : boardGet s.board (HexUtils.toKey pos) <;>
      simp only [GameLogic.selectPiece, hb] <;> split <;> rfl
  · cases hsel : s.selectedPosition with
    | none => simp only [GameLogic.movePiece, hsel]
    | some sel =>
        simp only [GameLogic.movePiece, hsel]
        split
        · rfl
        · rw [show ({ s with winner := Option.none } : GameLogic.GameState).board
              = s.board from rfl]
          cases hf : boardGet s.board (HexUtils.toKey sel) <;>
            cases ht : boardGet s.board (HexUtils.toKey dst) <;>
              simp only [hf, ht] <;> try rfl
          split <;> [rfl; split <;> rfl]

/-- C4, counterexample: `getCornerCenter` for the NORTH corner returns
`(-4, 8, 4)`, whose components sum to 8, violating the cube-coordinate
invariant the claim asserts. -/
theorem goalCenter_north_breaks_invariant :
    (getCornerCenter Player.north).q + (getCornerCenter Player.north).r +
      (getCornerCenter Player.north).s ≠ 0 := by
  decide

set_option maxRecDepth 400000 in
/-- C4 (amended): for the four corners NE, SE, S, SW the goal center is a
cell of that corner's own triangle on the constructed board and satisfies
`q + r + s = 0`; the NORTH center `(-4, 8, 4)` has component sum 8 and its
board key addresses a SOUTH-triangle cell, and the NORTH-WEST center
`(-4, -8, 12)` sums to 0 but is not a cell of the constructed board. -/
theorem goalCenter_amended :
    (∀ c ∈ ([.northEast, .southEast, .south, .southWest] : List Player),
      getCornerCenter c ∈ HexUtils.CORNER_POSITIONS c ∧
      (getCornerCenter c).q + (getCornerCenter c).r + (getCornerCenter c).s = 0 ∧
      boardHas (HexUtils.createBoard cfg2)
        (HexUtils.toKey (getCornerCenter c)) = true) ∧
    (getCornerCenter Player.north = ⟨-4, 8, 4⟩ ∧
      (boardGet (HexUtils.createBoard cfg2)
        (HexUtils.toKey (getCornerCenter Player.north))).map (·.corner)
        = some (some .south)) ∧
    (getCornerCenter Player.northWest = ⟨-4, -8, 12⟩ ∧
      (getCornerCenter Player.northWest).q + (getCornerCenter Player.northWest).r +
        (getCornerCenter Player.northWest).s = 0 ∧
      boardHas (HexUtils.createBoard cfg2)
        (HexUtils.toKey (getCornerCenter Player.northWest)) = false) := by
  decide

/-- C2: `importState` is all-or-nothing — whenever it reports failure
(including a `JSON.parse` failure, a missing top-level field, a non-array
board, a malformed tuple, or an off-board coordinate), the game state is
returned exactly as it was: no cell occupant, current player, selection, or
winner changes. -/
theorem importState_failure_no_mutation (d : Option JVal)
    (s : GameLogic.GameState) (h : (GameLogic.importState d s).1 = false) :
    (GameLogic.importState d s).2 = s := by
  have hs : (GameLogic.importState d s).1 = true ∨
      (GameLogic.importState d s).2 = s := by
    unfold GameLogic.importState
    rcases d with _ | v
    · exact Or.inr rfl
    rcases v with _ | b | n | st | xs | fields
    case obj =>
      dsimp only
      repeat' split
      all_goals first | exact Or.inl rfl | exact Or.inr rfl
    all_goals exact Or.inr rfl
  rcases hs with h1 | h2
  · rw [h1] at h; cases h
  · exact h2

set_option maxRecDepth 400000 in
/-- C2, witness: importing a record whose tuple has the off-board coordinate
`(99, 99, -198)` into the freshly constructed two-player state returns
`false` and leaves the state unchanged. -/
theorem importState_failure_no_mutation_witness :
    (GameLogic.importState (some badImportVal) initialState2).1 = false ∧
    (GameLogic.importState (some badImportVal) initialState2).2 = initialState2 :=
  ⟨by decide, importState_failure_no_mutation _ _ (by decide)⟩

/-- Counting the elements satisfying a conjunction of Boolean predicates
equals counting those satisfying the first conjunct exactly when, on this
list, the first conjunct implies the second. -/
theorem countP_conj_eq_iff {α : Type} (l : List α) (p q : α → Bool) :
    l.countP (fun a => p a && q a) = l.countP p ↔
      ∀ a ∈ l, p a = true → q a = true := by
  induction l with
  | nil => simp
  | cons x xs ih =>
      have hle : xs.countP (fun a => p a && q a) ≤ xs.countP p := by
        apply List.countP_mono_left
        intro a _ ha
        exact ((Bool.and_eq_true _ _).mp ha).1
      cases hp : p x <;> cases hq : q x <;>
        simp [List.countP_cons, hp, hq, ih] <;> omega

/-- Variant of `countP_conj_eq_iff` for decidable propositional conjuncts. -/
theorem countP_decide_conj_eq_iff {α : Type} (l : List α) (p q : α → Prop)
    [DecidablePred p] [DecidablePred q] :
    l.countP (fun a => decide (p a ∧ q a)) = l.countP (fun a => decide (p a)) ↔
      ∀ a ∈ l, p a → q a := by
  have hfe : (fun a => decide (p a ∧ q a)) =
      (fun a => decide (p a) && decide (q a)) := by
    funext a; exact Bool.decide_and _ _
  rw [hfe, countP_conj_eq_iff]
  constructor <;> intro h a ha hpa
  · exact of_decide_eq_true (h a ha (decide_eq_true hpa))
  · exact decide_eq_true (h a ha (of_decide_eq_true hpa))

/-- The win check holds exactly when the player occupies 10 cells, all in
the opposite corner. -/
theorem checkWin_iff (board : Board) (pl : Player) :
    GameLogic.checkWin board pl = true ↔
      (board.countP (fun e => e.2.player = pl) = 10 ∧
        ∀ e ∈ board, e.2.player = pl →
          e.2.corner = some (PlayerInfo.getOppositeCorner pl)) := by
  unfold GameLogic.checkWin
  simp only [decide_eq_true_eq]
  constructor
  · rintro ⟨h10, hg⟩
    refine ⟨h10, ?_⟩
    exact (countP_decide_conj_eq_iff board
      (fun e => e.2.player = pl)
      (fun e => e.2.corner = some (PlayerInfo.getOppositeCorner pl))).mp
      (by omega)
  · rintro ⟨h10, hall⟩
    refine ⟨h10, ?_⟩
    have := (countP_decide_conj_eq_iff board
      (fun e => e.2.player = pl)
      (fun e => e.2.corner = some (PlayerInfo.getOppositeCorner pl))).mpr hall
    omega

/-- C6: after every successful `movePiece` from a state without a winner,
the winner is set to the mover exactly when the mover occupies 10 cells of
the resulting board and every cell they occupy is marked with the mover's
opposite corner. -/
theorem movePiece_win_iff (s : GameLogic.GameState) (dst : HexPos)
    (sp : GameLogic.GameState) (hw : s.winner = Option.none)
    (hm : GameLogic.movePiece s dst = (true, sp)) :
    (sp.winner = some s.currentPlayer ↔
      (sp.board.countP (fun e => e.2.player = s.currentPlayer) = 10 ∧
        ∀ e ∈ sp.board, e.2.player = s.currentPlayer →
          e.2.corner = some (PlayerInfo.getOppositeCorner s.currentPlayer))) := by
  unfold GameLogic.movePiece at hm
  rcases hselp : s.selectedPosition with _ | sel
  · rw [hselp] at hm; simp at hm
  rw [hselp] at hm
  dsimp only at hm
  split at hm
  · simp at hm
  · split at hm
    case h_2 => simp at hm
    case h_1 fromPos x hf ht =>
      split at hm
      case isTrue hwin =>
        rw [Prod.mk.injEq] at hm
        obtain ⟨-, rfl⟩ := hm
        simp only
        rw [← checkWin_iff]
        simp [hwin]
      case isFalse hwin =>
        have hsp : sp.winner = Option.none ∧ sp.board =
            boardSetPlayer (boardSetPlayer s.board (HexUtils.toKey dst)
              fromPos.player) (HexUtils.toKey sel) .none := by
          split at hm <;>
            (rw [Prod.mk.injEq] at hm; obtain ⟨-, rfl⟩ := hm; exact ⟨hw, rfl⟩)
        rw [checkWin_iff] at hwin
        constructor
        · intro hcontra
          rw [hsp.1] at hcontra
          cases hcontra
        · intro hcond
          exfalso
          exact hwin (by rw [← hsp.2]; exact hcond)

/-- C6, witness: committing the pending move of `pendingState` succeeds, and
the win-precision equivalence holds for the resulting state (both sides are
false there: south holds one piece, not ten). -/
theorem movePiece_win_iff_witness :
    pendingState.winner = Option.none ∧
    ((GameLogic.movePiece pendingState ⟨0, 1, -1⟩).2.winner
        = some pendingState.currentPlayer ↔
      (((GameLogic.movePiece pendingState ⟨0, 1, -1⟩).2.board.countP
          (fun e => e.2.player = pendingState.currentPlayer) = 10) ∧
        ∀ e ∈ (GameLogic.movePiece pendingState ⟨0, 1, -1⟩).2.board,
          e.2.player = pendingState.currentPlayer →
            e.2.corner = some (PlayerInfo.getOppositeCorner
              pendingState.currentPlayer))) :=
  ⟨rfl, movePiece_win_iff pendingState ⟨0, 1, -1⟩ _ rfl
    (Prod.ext (by decide) rfl)⟩

/-- Evaluation of `importState` on a canonically encoded record: the shape
and player checks always pass, leaving the per-tuple validation. -/
theorem importState_encState (cp : Player) (ts : List TupleRec)
    (s : GameLogic.GameState) :
    GameLogic.importState (some (encState cp ts)) s =
      (match GameLogic.validatePieces s.board (ts.map encTuple) [] with
        | some newPlayers =>
            (true, { s with
              currentPlayer := cp
              board := s.board.map (fun e =>
                (e.1, { e.2 with
                  player := (GameLogic.playersGet newPlayers e.1).getD .none }))
              selectedPosition := Option.none
              validMoves := []
              winner := Option.none })
        | none => (false, s)) := by
  have base : GameLogic.importState (some (encState cp ts)) s =
      (if 0 ≤ cp.toInt ∧ cp.toInt ≤ 6 then
        (match GameLogic.validatePieces s.board (ts.map encTuple) [] with
          | some newPlayers =>
              (true, { s with
                currentPlayer := (Player.ofInt? cp.toInt).getD .none
                board := s.board.map (fun e =>
                  (e.1, { e.2 with
                    player := (GameLogic.playersGet newPlayers e.1).getD .none }))
                selectedPosition := Option.none
                validMoves := []
                winner := Option.none })
          | none => (false, s))
      else (false, s)) := rfl
  rw [base, if_pos (Player.toInt_range cp), Player.ofInt_toInt,
    Option.getD_some]

/-- C5: importing the value exported from a well-formed state (map keys
match cell coordinates and are duplicate-free — as in every state built by
`createBoard` and reachable by play, whose mutations never touch keys)
succeeds, reproduces every cell and the current player exactly, and clears
selection and winner. -/
theorem export_then_import (s : GameLogic.GameState)
    (hwf : ∀ e ∈ s.board, e.1 = HexUtils.toKey e.2.toHex)
    (hnd : (s.board.map (·.1)).Nodup) :
    GameLogic.importState (some (GameLogic.exportStateVal s)) s =
      (true, { s with selectedPosition := Option.none
                      validMoves := []
                      winner := Option.none }) := by
  rw [exportStateVal_eq, importState_encState]
  have hkeys : ∀ t ∈ boardTuples s.board, boardHas s.board (tupleKey t) = true := by
    intro t ht
    rcases List.mem_map.mp ht with ⟨e, he, rfl⟩
    have hk : tupleKey (e.2.q, e.2.r, e.2.s, e.2.player) = e.1 := (hwf e he).symm
    rw [hk]
    exact List.any_of_mem he (by simp)
  rw [validatePieces_enc_success _ _ _ hkeys]
  dsimp only
  have hmapkeys : (boardTuples s.board).map tupleKey = s.board.map (·.1) := by
    unfold boardTuples
    rw [List.map_map]
    exact List.map_eq_map_iff.mpr (fun e he => (hwf e he).symm)
  have hnd2 : ((boardTuples s.board).map tupleKey).Nodup := by
    rw [hmapkeys]; exact hnd
  have hperkey : ∀ e ∈ s.board,
      GameLogic.playersGet (buildPlayers (boardTuples s.board) []) e.1 =
        some e.2.player := by
    intro e he
    rw [playersGet_buildPlayers _ _ _ hnd2]
    have hfind : (boardTuples s.board).find?
        (fun t => tupleKey t = e.1) = some (e.2.q, e.2.r, e.2.s, e.2.player) := by
      unfold boardTuples
      rw [List.find?_map]
      have hcongr : s.board.find?
          ((fun t => decide (tupleKey t = e.1)) ∘
            (fun e => (e.2.q, e.2.r, e.2.s, e.2.player))) =
          s.board.find? (fun x => x.1 = e.1) := by
        apply find?_congr_mem
        intro a ha
        have : tupleKey (a.2.q, a.2.r, a.2.s, a.2.player) = a.1 := (hwf a ha).symm
        simp only [Function.comp]
        rw [this]
      rw [hcongr, find?_self_of_nodup s.board hnd e he]
      rfl
    rw [hfind]
    rfl
  have hboard : s.board.map (fun e =>
      (e.1, { e.2 with player := (GameLogic.playersGet (buildPlayers (boardTuples s.board) []) e.1).getD .none })) = s.board := by
    calc s.board.map (fun e =>
        (e.1, { e.2 with player := (GameLogic.playersGet (buildPlayers (boardTuples s.board) []) e.1).getD .none }))
        = s.board.map id :=
          List.map_eq_map_iff.mpr (fun e he => by rw [hperkey e he]; rfl)
      _ = s.board := List.map_id s.board
  rw [hboard]

/-- C5, witness: round-tripping the pending two-cell state reproduces its
board and current player. -/
theorem export_then_import_witness :
    (∀ e ∈ pendingState.board, e.1 = HexUtils.toKey e.2.toHex) ∧
    (pendingState.board.map (·.1)).Nodup ∧
    GameLogic.importState (some (GameLogic.exportStateVal pendingState))
        pendingState =
      (true, { pendingState with selectedPosition := Option.none
                                 validMoves := []
                                 winner := Option.none }) :=
  ⟨by decide, by decide, export_then_import pendingState (by decide) (by decide)⟩

/-- C9: importing a record whose duplicate-free tuple list does not cover
every board cell (when it succeeds) sets every listed cell to its listed
occupant and every unlisted cell to empty. -/
theorem import_partial_record (cp : Player) (ts : List TupleRec)
    (s sp : GameLogic.GameState) (hnd : (ts.map tupleKey).Nodup)
    (him : GameLogic.importState (some (encState cp ts)) s = (true, sp)) :
    sp.board = s.board.map (fun e => setCellPlayer e (listedPlayer ts e.1)) := by
  rw [importState_encState] at him
  cases hv : (GameLogic.validatePieces s.board (ts.map encTuple) []) with
  | none => rw [hv] at him; cases him
  | some m =>
      rw [hv] at him
      rw [Prod.mk.injEq] at him
      obtain ⟨-, rfl⟩ := him
      have hm := validatePieces_enc_some s.board ts [] m hv
      subst hm
      simp only
      apply List.map_eq_map_iff.mpr
      intro e _
      rw [show GameLogic.playersGet (buildPlayers ts []) e.1 =
        (match ts.find? (fun t => tupleKey t = e.1) with
          | some t => some (tuplePlayer t)
          | none => GameLogic.playersGet [] e.1)
        from playersGet_buildPlayers ts [] e.1 hnd]
      unfold setCellPlayer listedPlayer
      cases (ts.find? (fun t => tupleKey t = e.1)) with
      | some t => rfl
      | none => rfl

/-- C9, witness: importing a record listing only the origin cell into the
two-cell pending state succeeds; the origin keeps its listed occupant and
the unlisted cell becomes empty. -/
theorem import_partial_record_witness :
    (partialTuples.map tupleKey).Nodup ∧
    (GameLogic.importState (some (encState Player.south partialTuples))
        pendingState).1 = true ∧
    (GameLogic.importState (some (encState Player.south partialTuples))
        pendingState).2.board = pendingState.board.map (fun e =>
      setCellPlayer e (listedPlayer partialTuples e.1)) :=
  ⟨by decide, by decide,
    import_partial_record Player.south partialTuples pendingState
      (GameLogic.importState (some (encState Player.south partialTuples))
        pendingState).2
      (by decide) (Prod.ext (by decide) rfl)⟩

/-- The non-strict companion of the sort comparator: `a` may stay before
`b`. -/
def leScored (a b : GreedyAgent.Scored) : Prop := ¬ GreedyAgent.ltScored b a

/-- The strict comparator is asymmetric. -/
theorem ltScored_asymm {a b : GreedyAgent.Scored}
    (h : GreedyAgent.ltScored a b) : ¬ GreedyAgent.ltScored b a := by
  unfold GreedyAgent.ltScored at *
  rcases h with h | ⟨he, hf⟩
  · rintro (h2 | ⟨he2, hf2⟩)
    · exact lt_asymm h h2
    · rw [he2] at h; exact lt_irrefl _ h
  · rintro (h2 | ⟨he2, hf2⟩)
    · rw [he] at h2; exact lt_irrefl _ h2
    · exact lt_asymm hf hf2

/-- The strict comparator is transitive. -/
theorem ltScored_trans {a b c : GreedyAgent.Scored}
    (h1 : GreedyAgent.ltScored a b) (h2 : GreedyAgent.ltScored b c) :
    GreedyAgent.ltScored a c := by
  unfold GreedyAgent.ltScored at *
  rcases h1 with h1 | ⟨he1, hf1⟩ <;> rcases h2 with h2 | ⟨he2, hf2⟩
  · exact Or.inl (lt_trans h2 h1)
  · exact Or.inl (by rw [← he2]; exact h1)
  · exact Or.inl (by rw [he1]; exact h2)
  · exact Or.inr ⟨he1.trans he2, lt_trans hf1 hf2⟩

/-- Insertion produces a permutation of consing. -/
theorem insertScored_perm (x : GreedyAgent.Scored) (l : List GreedyAgent.Scored) :
    List.Perm (GreedyAgent.insertScored x l) (x :: l) := by
  induction l with
  | nil => exact List.Perm.refl _
  | cons y ys ih =>
      unfold GreedyAgent.insertScored
      split
      · exact List.Perm.refl _
      · exact List.Perm.trans (List.Perm.cons y ih) (List.Perm.swap x y ys)

/-- Membership in an insertion. -/
theorem mem_insertScored (x : GreedyAgent.Scored) (l : List GreedyAgent.Scored)
    (z : GreedyAgent.Scored) :
    z ∈ GreedyAgent.insertScored x l ↔ z = x ∨ z ∈ l := by
  rw [(insertScored_perm x l).mem_iff, List.mem_cons]

/-- Insertion preserves sortedness for the comparator. -/
theorem pairwise_insertScored (x : GreedyAgent.Scored)
    (l : List GreedyAgent.Scored) (h : l.Pairwise leScored) :
    (GreedyAgent.insertScored x l).Pairwise leScored := by
  induction l with
  | nil => simp [GreedyAgent.insertScored]
  | cons y ys ih =>
      rw [List.pairwise_cons] at h
      unfold GreedyAgent.insertScored
      split
      case isTrue hlt =>
        rw [List.pairwise_cons]
        refine ⟨?_, List.Pairwise.cons h.1 h.2⟩
        intro z hz
        rcases List.mem_cons.mp hz with rfl | hz
        · exact ltScored_asymm hlt
        · intro hzx
          exact h.1 z hz (ltScored_trans hzx hlt)
      case isFalse hnlt =>
        rw [List.pairwise_cons]
        refine ⟨?_, ih h.2⟩
        intro z hz
        rcases (mem_insertScored x ys z).mp hz with rfl | hz
        · exact hnlt
        · exact h.1 z hz

/-- The stable sort permutes its input. -/
theorem sortScored_perm (l : List GreedyAgent.Scored) :
    List.Perm (GreedyAgent.sortScored l) l := by
  have aux : ∀ (l acc : List GreedyAgent.Scored),
      List.Perm (List.foldl (fun acc x => GreedyAgent.insertScored x acc) acc l)
        (l ++ acc) := by
    intro l
    induction l with
    | nil => intro acc; simp
    | cons x xs ih =>
        intro acc
        have h1 := ih (GreedyAgent.insertScored x acc)
        have h2 : List.Perm (xs ++ GreedyAgent.insertScored x acc)
            (xs ++ (x :: acc)) :=
          List.Perm.append_left xs (insertScored_perm x acc)
        have h3 : List.Perm (xs ++ (x :: acc)) (x :: (xs ++ acc)) :=
          List.perm_middle
        exact List.Perm.trans h1 (List.Perm.trans h2 h3)
  simpa using aux l []

/-- The stable sort is sorted for the comparator. -/
theorem sortScored_pairwise (l : List GreedyAgent.Scored) :
    (GreedyAgent.sortScored l).Pairwise leScored := by
  have aux : ∀ (l acc : List GreedyAgent.Scored), acc.Pairwise leScored →
      (List.foldl (fun acc x => GreedyAgent.insertScored x acc) acc l).Pairwise
        leScored := by
    intro l
    induction l with
    | nil => intro acc h; exact h
    | cons x xs ih => intro acc h; exact ih _ (pairwise_insertScored x acc h)
  exact aux l [] List.Pairwise.nil

/-- Every sorted entry's progress is bounded by the best score. -/
theorem progress_le_bestScore (board : Board) (p : Player)
    (z : GreedyAgent.Scored) (hz : z ∈ GreedyAgent.sortedMoves board p) :
    z.progress ≤ GreedyAgent.bestScore board p := by
  have hp : (GreedyAgent.sortedMoves board p).Pairwise leScored :=
    sortScored_pairwise _
  unfold GreedyAgent.bestScore
  cases hsort : GreedyAgent.sortedMoves board p with
  | nil => rw [hsort] at hz; cases hz
  | cons hd t =>
      rw [hsort] at hz hp
      simp only [List.head?]
      rcases List.mem_cons.mp hz with rfl | hz
      · exact le_refl _
      · have hle := (List.pairwise_cons.mp hp).1 z hz
        by_contra hlt
        exact hle (Or.inl (lt_of_not_le hlt))

/-- Characterization of a successful greedy choice: it is the drawn entry of
the `bestMoves` pool. -/
theorem greedy_getBestMove_chosen (board : Board) (p : Player) (r : Nat)
    (mv : Move) (sc : WithBot ℚ)
    (h : (GreedyAgent.getBestMove board p r).1 = some (mv, sc)) :
    ∃ chosen ∈ GreedyAgent.bestMoves board p,
      (GreedyAgent.bestMoves board p).get?
        (r % (GreedyAgent.bestMoves board p).length) = some chosen ∧
      mv = chosen.move ∧ sc = chosen.progress := by
  simp only [GreedyAgent.getBestMove] at h
  split at h
  · cases h
  · split at h
    · cases h
    · split at h
      case h_1 chosen heq =>
        refine ⟨chosen, List.get?_mem heq, heq, ?_⟩
        simp only [Prod.mk.injEq, Option.some.injEq] at h
        exact ⟨h.1.symm, h.2.symm⟩
      case h_2 => cases h

/-- The move of any `bestMoves` entry is legal, has progress equal to the
entry's progress and to the best score, and its resulting distance is the
entry's `finalDistance`. -/
theorem bestMoves_entry_spec (board : Board) (p : Player)
    (z : GreedyAgent.Scored) (hz : z ∈ GreedyAgent.bestMoves board p) :
    z.move ∈ MoveUtils.getAllPossibleMoves board p ∧
    MoveUtils.evaluateForwardProgress z.move board p = z.progress ∧
    z.progress = GreedyAgent.bestScore board p ∧
    z.finalDistance = HexUtils.distance z.move.toPos
      (getCornerCenter (PlayerInfo.getOppositeCorner p)) := by
  have hz2 := List.mem_filter.mp hz
  have hmem : z ∈ GreedyAgent.scoredMoves board p :=
    (sortScored_perm _).mem_iff.mp hz2.1
  rcases List.mem_map.mp hmem with ⟨mv0, hmv0, rfl⟩
  refine ⟨hmv0, rfl, ?_, rfl⟩
  simpa using hz2.2

/-- C7: whenever the greedy agent returns a move (for any draw outcome `r`),
that move is legal and its forward-progress score — also returned as the
move's score — equals the maximum of `evaluateForwardProgress` over all
legal moves of that player on that board. -/
theorem greedy_move_maximizes_progress (board : Board) (p : Player) (r : Nat)
    (mv : Move) (sc : WithBot ℚ)
    (h : (GreedyAgent.getBestMove board p r).1 = some (mv, sc)) :
    mv ∈ MoveUtils.getAllPossibleMoves board p ∧
    MoveUtils.evaluateForwardProgress mv board p = sc ∧
    ∀ mv2 ∈ MoveUtils.getAllPossibleMoves board p,
      MoveUtils.evaluateForwardProgress mv2 board p ≤
        MoveUtils.evaluateForwardProgress mv board p := by
  rcases greedy_getBestMove_chosen board p r mv sc h with
    ⟨chosen, hcmem, hget, rfl, rfl⟩
  rcases bestMoves_entry_spec board p chosen hcmem with ⟨hleg, heval, hbest, -⟩
  refine ⟨hleg, heval, ?_⟩
  intro mv2 hmv2
  have hz2 : (⟨mv2, MoveUtils.evaluateForwardProgress mv2 board p,
      HexUtils.distance mv2.toPos
        (getCornerCenter (PlayerInfo.getOppositeCorner p))⟩ :
      GreedyAgent.Scored) ∈ GreedyAgent.scoredMoves board p := by
    unfold GreedyAgent.scoredMoves
    exact List.mem_map_of_mem _ hmv2
  have hz2s : (⟨mv2, MoveUtils.evaluateForwardProgress mv2 board p,
      HexUtils.distance mv2.toPos
        (getCornerCenter (PlayerInfo.getOppositeCorner p))⟩ :
      GreedyAgent.Scored) ∈ GreedyAgent.sortedMoves board p :=
    (sortScored_perm _).mem_iff.mpr hz2
  have := progress_le_bestScore board p _ hz2s
  rw [heval, hbest]
  exact this

/-- C7, witness: on the two-cell board the north piece's single move is
returned (draw 0) and attains the maximal progress. -/
theorem greedy_move_maximizes_progress_witness :
    (GreedyAgent.getBestMove tieBoard Player.north 0).1 =
      some (⟨⟨-4, 6, -2⟩, ⟨-4, 7, -3⟩⟩, ((1 : ℚ) : WithBot ℚ)) ∧
    ((⟨⟨-4, 6, -2⟩, ⟨-4, 7, -3⟩⟩ : Move) ∈
        MoveUtils.getAllPossibleMoves tieBoard Player.north ∧
      MoveUtils.evaluateForwardProgress ⟨⟨-4, 6, -2⟩, ⟨-4, 7, -3⟩⟩ tieBoard
          Player.north = ((1 : ℚ) : WithBot ℚ) ∧
      ∀ mv2 ∈ MoveUtils.getAllPossibleMoves tieBoard Player.north,
        MoveUtils.evaluateForwardProgress mv2 tieBoard Player.north ≤
          MoveUtils.evaluateForwardProgress ⟨⟨-4, 6, -2⟩, ⟨-4, 7, -3⟩⟩ tieBoard
            Player.north) :=
  ⟨by decide,
    greedy_move_maximizes_progress tieBoard Player.north 0 _ _ (by decide)⟩

/-- C3, counterexample: on `tieBoard` both legal north moves gain progress 1,
but for draw outcome `r = 1` the agent returns the origin move, whose
resulting distance to the goal center is 7, while the other maximal-progress
move ends at distance 1 — the returned move does not have the smallest
resulting distance. -/
theorem greedy_tiebreak_counterexample :
    (GreedyAgent.getBestMove tieBoard Player.north 1).1 =
      some (⟨⟨0, 0, 0⟩, ⟨0, 1, -1⟩⟩, ((1 : ℚ) : WithBot ℚ)) ∧
    (⟨⟨-4, 6, -2⟩, ⟨-4, 7, -3⟩⟩ : Move) ∈
      MoveUtils.getAllPossibleMoves tieBoard Player.north ∧
    MoveUtils.evaluateForwardProgress ⟨⟨-4, 6, -2⟩, ⟨-4, 7, -3⟩⟩ tieBoard
        Player.north =
      MoveUtils.evaluateForwardProgress ⟨⟨0, 0, 0⟩, ⟨0, 1, -1⟩⟩ tieBoard
        Player.north ∧
    HexUtils.distance ⟨-4, 7, -3⟩
        (getCornerCenter (PlayerInfo.getOppositeCorner Player.north)) <
      HexUtils.distance ⟨0, 1, -1⟩
        (getCornerCenter (PlayerInfo.getOppositeCorner Player.north)) := by
  decide

/-- C3 (amended): the returned move is drawn from the pool of all
maximal-progress moves irrespective of resulting distance — the
distance comparison only orders the pool — so every maximal-progress legal
move is in the draw pool, and only the draw outcome `r ≡ 0` is guaranteed
to return a move with the smallest resulting distance among the
maximal-progress moves. -/
theorem greedy_tiebreak_amended (board : Board) (p : Player) (r : Nat)
    (mv : Move) (sc : WithBot ℚ)
    (h : (GreedyAgent.getBestMove board p r).1 = some (mv, sc)) :
    (∃ z ∈ GreedyAgent.bestMoves board p, z.move = mv) ∧
    (∀ mv2 ∈ MoveUtils.getAllPossibleMoves board p,
      MoveUtils.evaluateForwardProgress mv2 board p =
        GreedyAgent.bestScore board p →
      ∃ z ∈ GreedyAgent.bestMoves board p, z.move = mv2) ∧
    (r % (GreedyAgent.bestMoves board p).length = 0 →
      ∀ mv2 ∈ MoveUtils.getAllPossibleMoves board p,
        MoveUtils.evaluateForwardProgress mv2 board p =
          MoveUtils.evaluateForwardProgress mv board p →
        HexUtils.distance mv.toPos
            (getCornerCenter (PlayerInfo.getOppositeCorner p)) ≤
          HexUtils.distance mv2.toPos
            (getCornerCenter (PlayerInfo.getOppositeCorner p))) := by
  rcases greedy_getBestMove_chosen board p r mv sc h with
    ⟨chosen, hcmem, hget, rfl, rfl⟩
  rcases bestMoves_entry_spec board p chosen hcmem with
    ⟨hleg, heval, hbest, hfd⟩
  have hpool : ∀ mv2 ∈ MoveUtils.getAllPossibleMoves board p,
      MoveUtils.evaluateForwardProgress mv2 board p =
        GreedyAgent.bestScore board p →
      (⟨mv2, MoveUtils.evaluateForwardProgress mv2 board p,
        HexUtils.distance mv2.toPos
          (getCornerCenter (PlayerInfo.getOppositeCorner p))⟩ :
        GreedyAgent.Scored) ∈ GreedyAgent.bestMoves board p := by
    intro mv2 hmv2 hsc
    unfold GreedyAgent.bestMoves
    rw [List.mem_filter]
    constructor
    · refine (sortScored_perm _).mem_iff.mpr ?_
      unfold GreedyAgent.scoredMoves
      exact List.mem_map_of_mem _ hmv2
    · simpa using hsc
  refine ⟨⟨chosen, hcmem, rfl⟩, fun mv2 h2 h3 => ⟨_, hpool mv2 h2 h3, rfl⟩, ?_⟩
  intro hr mv2 hmv2 heq2
  have hz2 : (⟨mv2, MoveUtils.evaluateForwardProgress mv2 board p,
      HexUtils.distance mv2.toPos
        (getCornerCenter (PlayerInfo.getOppositeCorner p))⟩ :
      GreedyAgent.Scored) ∈ GreedyAgent.bestMoves board p := by
    apply hpool mv2 hmv2
    rw [heq2, heval, hbest]
  rw [hr] at hget
  have hpair : (GreedyAgent.bestMoves board p).Pairwise leScored :=
    (sortScored_pairwise _).sublist (List.filter_sublist _)
  cases hbm : GreedyAgent.bestMoves board p with
  | nil => rw [hbm] at hget; cases hget
  | cons hd t =>
      rw [hbm] at hget hz2 hpair
      simp only [List.get?] at hget
      obtain rfl : hd = chosen := by injection hget
      rw [← hfd]
      rcases List.mem_cons.mp hz2 with heq3 | hz3
      · rw [← heq3]
      · have hle := (List.pairwise_cons.mp hpair).1 _ hz3
        unfold leScored GreedyAgent.ltScored at hle
        push_neg at hle
        have hps : MoveUtils.evaluateForwardProgress mv2 board p =
            hd.progress := by rw [heq2, heval]
        have := hle.2 (by simpa using hps)
        simpa using this

/-- C3 amended, witness: with draw outcome 0 on `tieBoard` the returned move
is the one ending nearest the goal; the pool facts hold as stated. -/
theorem greedy_tiebreak_amended_witness :
    (GreedyAgent.getBestMove tieBoard Player.north 0).1 =
      some (⟨⟨-4, 6, -2⟩, ⟨-4, 7, -3⟩⟩, ((1 : ℚ) : WithBot ℚ)) ∧
    ((∃ z ∈ GreedyAgent.bestMoves tieBoard Player.north,
        z.move = (⟨⟨-4, 6, -2⟩, ⟨-4, 7, -3⟩⟩ : Move)) ∧
      (∀ mv2 ∈ MoveUtils.getAllPossibleMoves tieBoard Player.north,
        MoveUtils.evaluateForwardProgress mv2 tieBoard Player.north =
          GreedyAgent.bestScore tieBoard Player.north →
        ∃ z ∈ GreedyAgent.bestMoves tieBoard Player.north, z.move = mv2) ∧
      (0 % (GreedyAgent.bestMoves tieBoard Player.north).length = 0 →
        ∀ mv2 ∈ MoveUtils.getAllPossibleMoves tieBoard Player.north,
          MoveUtils.evaluateForwardProgress mv2 tieBoard Player.north =
            MoveUtils.evaluateForwardProgress
              (⟨⟨-4, 6, -2⟩, ⟨-4, 7, -3⟩⟩ : Move) tieBoard Player.north →
          HexUtils.distance (⟨-4, 7, -3⟩ : HexPos)
              (getCornerCenter (PlayerInfo.getOppositeCorner Player.north)) ≤
            HexUtils.distance mv2.toPos
              (getCornerCenter (PlayerInfo.getOppositeCorner Player.north)))) :=
  ⟨by decide,
    greedy_tiebreak_amended tieBoard Player.north 0
      ⟨⟨-4, 6, -2⟩, ⟨-4, 7, -3⟩⟩ ((1 : ℚ) : WithBot ℚ) (by decide)⟩

/-- C8: neither agent's `getBestMove` changes the live board it is given: in
the state-passing model both return the input board unchanged, every write
during search or simulation targeting a map produced by `cloneBoard` (whose
value-level effect is the identity, third conjunct). -/
theorem search_leaves_live_board (p : MCTSAgent.MCTSParams) (live : Board)
    (os : Nat → MCTSAgent.IterOracle) (iters fallbackPick : Nat)
    (q : Player) (r : Nat) (b : Board) :
    (MCTSAgent.getBestMove p live os iters fallbackPick).2 = live ∧
    (GreedyAgent.getBestMove live q r).2 = live ∧
    cloneBoard b = b := by
  refine ⟨?_, ?_, cloneBoard_eq b⟩
  · unfold MCTSAgent.getBestMove
    dsimp only
    repeat' split <;> try rfl
  · unfold GreedyAgent.getBestMove
    dsimp only
    repeat' split <;> try rfl

/-- One search iteration changes neither the producing move nor the board
snapshot of the node it is applied to (it only updates counters, the
untried list and the children). -/
theorem searchStep_fields (p : MCTSAgent.MCTSParams) (o : MCTSAgent.IterOracle)
    (depth : Nat) (n : MCTSAgent.MCTSNode) :
    (MCTSAgent.searchStep p o depth n).1.move = n.move ∧
    (MCTSAgent.searchStep p o depth n).1.board = n.board := by
  cases n with
  | mk board move wins visits untried children =>
      cases untried with
      | nil =>
          cases children with
          | nil =>
              simp only [MCTSAgent.searchStep]
              exact ⟨rfl, rfl⟩
          | cons c cs =>
              simp only [MCTSAgent.searchStep]
              exact ⟨rfl, rfl⟩
      | cons u us =>
          simp only [MCTSAgent.searchStep]
          exact ⟨rfl, rfl⟩

/-- One search iteration preserves the single-perspective invariant: the
selection arm rewrites one child by a recursively stepped node with the same
move and board, the expansion arm removes a drawn untried move and appends a
child whose move is that untried move and whose untried list is generated
for the agent's own player on the child's board, and the terminal arm only
touches counters. Stated with an explicit size bound to drive the strong
induction. -/
theorem searchStep_single_perspective (p : MCTSAgent.MCTSParams) :
    ∀ (N : Nat) (n : MCTSAgent.MCTSNode), sizeOf n ≤ N →
      ∀ (o : MCTSAgent.IterOracle) (depth : Nat),
      MCTSAgent.SinglePerspective p.player n →
      MCTSAgent.SinglePerspective p.player
        (MCTSAgent.searchStep p o depth n).1 := by
  intro N
  induction N with
  | zero =>
      intro n hn
      exfalso
      cases n with
      | mk board move wins visits untried children =>
          simp only [MCTSAgent.MCTSNode.mk.sizeOf_spec] at hn
          omega
  | succ N ih =>
      intro n hn o depth hsp
      cases hsp with
      | mk board move wins visits untried children hunt hchmv hchsp =>
          cases untried with
          | nil =>
              cases children with
              | nil =>
                  simp only [MCTSAgent.searchStep]
                  exact MCTSAgent.SinglePerspective.mk _ _ _ _ _ _
                    (by intro m hm; cases hm) (by intro c hc; cases hc)
                    (by intro c hc; cases hc)
              | cons c cs =>
                  simp only [MCTSAgent.searchStep]
                  have hcm : (c :: cs).get
                      ⟨o.selIdx depth % (c :: cs).length,
                        Nat.mod_lt _ (Nat.succ_pos cs.length)⟩ ∈ c :: cs :=
                    List.get_mem _ _ _
                  have hsz : sizeOf ((c :: cs).get
                      ⟨o.selIdx depth % (c :: cs).length,
                        Nat.mod_lt _ (Nat.succ_pos cs.length)⟩) ≤ N := by
                    have hlt := List.sizeOf_get (c :: cs)
                      ⟨o.selIdx depth % (c :: cs).length,
                        Nat.mod_lt _ (Nat.succ_pos cs.length)⟩
                    simp only [MCTSAgent.MCTSNode.mk.sizeOf_spec] at hn
                    omega
                  refine MCTSAgent.SinglePerspective.mk _ _ _ _ _ _
                    (by intro m hm; cases hm) ?_ ?_
                  · intro x hx
                    rcases List.mem_or_eq_of_mem_set hx with hx' | rfl
                    · exact hchmv x hx'
                    · rcases hchmv _ hcm with ⟨mv, hmv1, hmv2⟩
                      refine ⟨mv, ?_, hmv2⟩
                      rw [(searchStep_fields p o (depth + 1) _).1, hmv1]
                  · intro x hx
                    rcases List.mem_or_eq_of_mem_set hx with hx' | rfl
                    · exact hchsp x hx'
                    · exact ih _ hsz o (depth + 1) (hchsp _ hcm)
          | cons u us =>
              simp only [MCTSAgent.searchStep]
              have hmv : (u :: us).get
                  ⟨o.expandIdx % (u :: us).length,
                    Nat.mod_lt _ (Nat.succ_pos us.length)⟩ ∈ u :: us :=
                List.get_mem _ _ _
              refine MCTSAgent.SinglePerspective.mk _ _ _ _ _ _ ?_ ?_ ?_
              · intro m hm
                exact hunt m (List.eraseIdx_subset _ _ hm)
              · intro x hx
                rcases List.mem_append.mp hx with hx' | hx'
                · exact hchmv x hx'
                · rcases List.mem_singleton.mp hx' with rfl
                  exact ⟨_, rfl, hunt _ hmv⟩
              · intro x hx
                rcases List.mem_append.mp hx with hx' | hx'
                · exact hchsp x hx'
                · rcases List.mem_singleton.mp hx' with rfl
                  refine MCTSAgent.SinglePerspective.mk _ _ _ _ _ _ ?_
                    (by intro c hc; cases hc) (by intro c hc; cases hc)
                  intro m hm
                  rw [cloneBoard_eq]
                  exact hm

/-- C10: the MCTS search tree is single-perspective. The root's untried
moves are generated for the agent's own player, and every iteration of the
time-boxed loop preserves the invariant that each node's untried moves and
each child's producing move are legal moves of the agent's player on that
node's board — opponent replies never become tree nodes (they occur only
inside `simLoop`). -/
theorem mcts_tree_single_perspective (p : MCTSAgent.MCTSParams)
    (board : Board) (os : Nat → MCTSAgent.IterOracle) (k : Nat) :
    MCTSAgent.SinglePerspective p.player
      (MCTSAgent.runIters p os k (MCTSAgent.mkRoot p board)) := by
  have hroot : MCTSAgent.SinglePerspective p.player
      (MCTSAgent.mkRoot p board) := by
    refine MCTSAgent.SinglePerspective.mk _ _ _ _ _ _ ?_
      (by intro c hc; cases hc) (by intro c hc; cases hc)
    intro m hm
    rw [cloneBoard_eq]
    exact hm
  have hiter : ∀ (k : Nat) (root : MCTSAgent.MCTSNode),
      MCTSAgent.SinglePerspective p.player root →
      MCTSAgent.SinglePerspective p.player
        (MCTSAgent.runIters p os k root) := by
    intro k
    induction k with
    | zero => intro root h; exact h
    | succ k ihk =>
        intro root h
        exact ihk _ (searchStep_single_perspective p (sizeOf root) root
          (le_refl _) (os k) 0 h)
  exact hiter k _ hroot

end Game
